import Mathlib

/- A shallow embedding of the interactive JavaScript console of go-expanse
   (the gexp console source file): the statement accumulator of
   jsre.interactive together with setIndent and resetPrompt, the history
   redaction function hidepassword, the completion functions
   keywordCompleter and apiWordCompleter, jsre.ConfirmTransaction, and the
   jeth object bindings installed by jsre.apiBindings.  All console input is
   ASCII, so Go byte positions and Lean character positions coincide. -/

namespace GexpConsole

/-- Models strings.Count(s, sub) for a one-character substring sub. -/
def countChar (s : String) (c : Char) : Nat := s.data.count c

/-- Net bracket depth that setIndent stores into indentCount:
(count of open braces plus open parens) minus (count of close braces plus
close parens), over the whole buffer. -/
def indentOf (s : String) : Int :=
  ((countChar s '\x7b' : Int) + (countChar s '(' : Int))
    - ((countChar s '\x7d' : Int) + (countChar s ')' : Int))

/-- Prompt string that setIndent installs for a given indentCount: the base
prompt for a non-positive count, otherwise strings.Join of indentCount*2
empty strings with separator ".." (that is, 2*n - 1 copies of "..")
followed by one space. -/
def ps1Of (n : Int) : String :=
  if n ≤ 0 then "> "
  else String.join (List.replicate (2 * n.toNat - 1) "..") ++ " "

/-- State of the interactive loop at the point it waits for input: the
package-level variables str and indentCount, the prompt field ps1, and the
sequence of entries passed to AppendHistory so far. -/
structure ConsoleState where
  str : String
  indentCount : Int
  ps1 : String
  history : List String
deriving DecidableEq

/-- Replacement stored for a sensitive statement (the constant passwordRepl). -/
def passwordRepl : String := ""

/-- Whether the regular expression personal.[nu] matches at the head of the
character list: the literal letters of the account namespace, then any
character except a newline, then the letter n or the letter u. -/
def pwMatchHere : List Char → Bool
  | 'p' :: 'e' :: 'r' :: 's' :: 'o' :: 'n' :: 'a' :: 'l' :: c :: d :: _ =>
      decide (c ≠ '\n') && decide (d = 'n' ∨ d = 'u')
  | _ => false

/-- Whether the regular expression personal.[nu] matches anywhere in the
character list. -/
def pwMatch : List Char → Bool
  | [] => false
  | c :: rest => pwMatchHere (c :: rest) || pwMatch rest

/-- Models passwordRegexp.MatchString for the pattern personal.[nu]. -/
def passwordRegexpMatch (s : String) : Bool := pwMatch s.data

/-- Models hidepassword: a statement matching passwordRegexp is replaced by
passwordRepl (the empty string), any other statement is returned verbatim. -/
def hidepassword (input : String) : String :=
  if passwordRegexpMatch input then passwordRepl else input

/-- Models the Go slice expression str[:len(str)-1].  At its single call
site str always ends in a one-byte newline, so dropping the last byte is
dropping the last character. -/
def stripLast (s : String) : String := String.mk s.data.dropLast

/-- Outcome of handing one input line to the interactive loop: either the
loop returns (session over) or it continues in a new state, possibly having
submitted a completed statement to parseInput. -/
inductive StepResult where
  | exited : StepResult
  | continued : ConsoleState → Option String → StepResult
deriving DecidableEq

/-- One iteration of the interactive loop body on an input line, following
jsre.interactive: return when indentCount is non-positive and the line is
the exit command; skip empty lines; otherwise append the line plus newline
to str, recompute the indent via setIndent, and when the new depth is
non-positive append hidepassword of the buffer without its final newline to
history (only when that entry is non-empty), submit the buffer, and clear
str. -/
def consoleStep (s : ConsoleState) (input : String) : StepResult :=
  if s.indentCount ≤ 0 ∧ input = "exit" then .exited
  else if input = "" then .continued s none
  else if indentOf (s.str ++ input ++ "\n") ≤ 0 then
    .continued
      ⟨"", indentOf (s.str ++ input ++ "\n"),
        ps1Of (indentOf (s.str ++ input ++ "\n")),
        if 0 < (hidepassword (stripLast (s.str ++ input ++ "\n"))).length
        then s.history ++ [hidepassword (stripLast (s.str ++ input ++ "\n"))]
        else s.history⟩
      (some (s.str ++ input ++ "\n"))
  else
    .continued
      ⟨s.str ++ input ++ "\n", indentOf (s.str ++ input ++ "\n"),
        ps1Of (indentOf (s.str ++ input ++ "\n")), s.history⟩
      none

/-- Models resetPrompt: clear indentCount and str and restore the base
prompt (the history kept by the liner is untouched). -/
def resetPrompt (s : ConsoleState) : ConsoleState := ⟨"", 0, "> ", s.history⟩

/-- State of the loop when the console starts: empty buffer, zero depth,
base prompt, no history entries. -/
def initState : ConsoleState := ⟨"", 0, "> ", []⟩

/-- States the interactive loop can be in when it waits for the next input
line: the start state, any state after processing a line that did not end
the session, and any state after the ctrl-C reset. -/
inductive Reachable : ConsoleState → Prop
  | init : Reachable initState
  | line (s s2 : ConsoleState) (input : String) (sub : Option String) :
      Reachable s → consoleStep s input = .continued s2 sub → Reachable s2
  | interrupt (s : ConsoleState) : Reachable s → Reachable (resetPrompt s)

/-- Outcome of feeding a finite sequence of lines to the loop: the session
either ended or is still alive in some state; in both cases the list of
statements submitted to parseInput is collected in order. -/
inductive RunOutcome where
  | exited : List String → RunOutcome
  | alive : ConsoleState → List String → RunOutcome
deriving DecidableEq

/-- Feed a list of input lines to the interactive loop one after the other,
collecting every submitted statement. -/
def runLines (s : ConsoleState) : List String → RunOutcome
  | [] => .alive s []
  | l :: ls =>
      match consoleStep s l with
      | .exited => .exited []
      | .continued s2 sub =>
          match runLines s2 ls with
          | .exited subs => .exited (sub.toList ++ subs)
          | .alive f subs => .alive f (sub.toList ++ subs)

/-- Buffer text accumulated by a sequence of input lines: each line
followed by a newline, concatenated in order. -/
def bufferOf : List String → String
  | [] => ""
  | l :: ls => (l ++ "\n") ++ bufferOf ls

/-- Models strings.HasPrefix(s, pre): pre is a prefix of s. -/
def strHasPre (pre s : String) : Bool := pre.data.isPrefixOf s.data

/-- Worker for splitOnDot, carrying the reversed current field. -/
def splitOnDotAux : List Char → List Char → List String
  | [], acc => [String.mk acc.reverse]
  | c :: cs, acc =>
      if c = '.' then String.mk acc.reverse :: splitOnDotAux cs []
      else splitOnDotAux cs (c :: acc)

/-- Models strings.Split(s, ".") for the one-character dot separator. -/
def splitOnDot (s : String) : List String := splitOnDotAux s.data []

/-- Models keywordCompleter over the loadedModulesMethods table.  The Go
table is a map whose iteration order is unspecified; it is embedded as an
association list iterated in list order.  With a dot in the line: split on
dots, and on exactly two fields look the module up and qualify every method
the part-method name is a prefix of.  Without a dot: a line equal to a
module name contributes all methods of that module qualified, and a line
that is a prefix of a module name contributes the module name itself. -/
def keywordCompleter (catalog : List (String × List String)) (line : String) :
    List String :=
  if '.' ∈ line.data then
    match splitOnDot line with
    | [module, partMethod] =>
        match catalog.lookup module with
        | some methods =>
            (methods.filter (fun m => strHasPre partMethod m)).map
              (fun m => module ++ "." ++ m)
        | none => []
    | _ => []
  else
    catalog.flatMap (fun entry =>
      if line = entry.1 then entry.2.map (fun m => entry.1 ++ "." ++ m)
      else if strHasPre line entry.1 then [entry.1]
      else [])

/-- Loop condition of the backward scan in apiWordCompleter at index j: the
character there is a dot or a letter, or it is the digit 3 at index at
least 3 immediately preceded by the letters w, e, b (the module alias
web3).  Out-of-range indices read a space, which satisfies neither arm; the
caller only uses indices below the line length. -/
def goodAt (l : List Char) (j : Nat) : Prop :=
  (l.getD j ' ' = '.' ∨ ('a' ≤ l.getD j ' ' ∧ l.getD j ' ' ≤ 'z')
    ∨ ('A' ≤ l.getD j ' ' ∧ l.getD j ' ' ≤ 'Z'))
  ∨ (3 ≤ j ∧ l.getD j ' ' = '3' ∧ l.getD (j - 3) ' ' = 'w'
      ∧ l.getD (j - 2) ' ' = 'e' ∧ l.getD (j - 1) ' ' = 'b')

instance (l : List Char) (j : Nat) : Decidable (goodAt l j) := by
  unfold goodAt
  infer_instance

/-- Backward scan of apiWordCompleter: starting at an index, walk towards
the front of the line while the loop condition holds, never examining index
zero; on the first failing index return that index plus one, and return
zero when the walk reaches the front. -/
def scanBoundary (l : List Char) : Nat → Nat
  | 0 => 0
  | j + 1 => if goodAt l (j + 1) then scanBoundary l j else j + 2

/-- Models apiWordCompleter: an empty line or cursor position zero yields no
completions; otherwise scan backwards from the character before the cursor
for the token boundary, and return the untouched head, the completions of
the token between boundary and cursor, and the untouched tail. -/
def apiWordCompleter (catalog : List (String × List String)) (line : String)
    (pos : Nat) : String × List String × String :=
  if line.length = 0 ∨ pos = 0 then ("", [], "")
  else
    (String.mk (line.data.take (scanBoundary line.data (pos - 1))),
      keywordCompleter catalog
        (String.mk ((line.data.take pos).drop (scanBoundary line.data (pos - 1)))),
      String.mk (line.data.drop pos))

/-- Modelled from the words of the claim, for comparison with goodAt: the claim
asserts the scan keeps identifier characters (letters, digits, underscore),
the dot separator, and the web3 alias. -/
def claimTokenChar (l : List Char) (j : Nat) : Prop :=
  (l.getD j ' ' = '.' ∨ l.getD j ' ' = '_' ∨ (l.getD j ' ').isAlphanum = true)
  ∨ (3 ≤ j ∧ l.getD j ' ' = '3' ∧ l.getD (j - 3) ' ' = 'w'
      ∧ l.getD (j - 2) ' ' = 'e' ∧ l.getD (j - 1) ' ' = 'b')

instance (l : List Char) (j : Nat) : Decidable (claimTokenChar l j) := by
  unfold claimTokenChar
  infer_instance

/-- Models strings.Trim(s, " "): remove leading and trailing spaces. -/
def trimSpaces (s : String) : String :=
  String.mk (((s.data.dropWhile (fun c => c = ' ')).reverse.dropWhile
    (fun c => c = ' ')).reverse)

/-- Result of a Prompt call: the answer string and whether the read
returned an error. -/
structure PromptReply where
  answer : String
  errored : Bool
deriving DecidableEq

/-- Models jsre.ConfirmTransaction: with NatSpec enabled the operator is
prompted and the error of the Prompt call is discarded (bound to the blank
identifier); the result is whether the answer, trimmed of spaces, has the
prefix y.  With NatSpec disabled the result is true without prompting. -/
def ConfirmTransaction (natSpec : Bool) (reply : PromptReply) : Bool :=
  if natSpec then strHasPre "y" (trimSpaces reply.answer) else true

/-- The two script-facing fields the console installs on the jeth object. -/
structure JethBindings (α β : Type) where
  send : α → β
  sendAsync : α → β

/-- Models the two Set calls of jsre.apiBindings: both the send field and
the sendAsync field are bound to the same function jeth.Send. -/
def apiBindings {α β : Type} (jethSend : α → β) : JethBindings α β :=
  ⟨jethSend, jethSend⟩

/-- Invariant of the interactive loop at its wait points: the buffer is
non-empty exactly when the indent depth is positive, and a positive indent
depth equals the depth computed from the buffer. -/
def StateInv (s : ConsoleState) : Prop :=
  (s.str ≠ "" ↔ 0 < s.indentCount)
    ∧ (0 < s.indentCount → s.indentCount = indentOf s.str)

theorem strData_append (a b : String) : (a ++ b).data = a.data ++ b.data := rfl

theorem str_ne_empty (a : String) (h : a.data ≠ []) : a ≠ "" := by
  intro he
  exact h (by rw [he])

theorem indentOf_append (a b : String) :
    indentOf (a ++ b) = indentOf a + indentOf b := by
  unfold indentOf countChar
  rw [strData_append]
  simp [List.count_append]
  omega

theorem str_ext {a b : String} (h : a.data = b.data) : a = b :=
  congrArg String.mk h

theorem str_eq_empty_of_data (a : String) (h : a.data = []) : a = "" :=
  str_ext h

theorem strData_ne_of_ne_empty (a : String) (h : a ≠ "") : a.data ≠ [] :=
  fun hd => h (str_eq_empty_of_data a hd)

theorem strApp_assoc (a b c : String) : (a ++ b) ++ c = a ++ (b ++ c) := by
  apply str_ext
  simp [strData_append]

theorem strApp_empty (a : String) : a ++ "" = a := by
  apply str_ext
  simp [strData_append]

theorem strEmpty_app (a : String) : "" ++ a = a := by
  apply str_ext
  simp [strData_append]

theorem strApp_newline_ne_empty (a : String) : a ++ "\n" ≠ "" := by
  apply str_ne_empty
  rw [strData_append]
  simp

theorem stripLast_newline (a : String) : stripLast (a ++ "\n") = a := by
  apply str_ext
  show (a ++ "\n").data.dropLast = a.data
  rw [strData_append, show ("\n" : String).data = ['\n'] from rfl,
    List.dropLast_concat]

theorem strLength_append (a b : String) :
    (a ++ b).length = a.length + b.length := by
  show (a ++ b).data.length = a.data.length + b.data.length
  rw [strData_append, List.length_append]

theorem strLength_pos (a : String) (h : a ≠ "") : 0 < a.length :=
  List.length_pos.mpr (strData_ne_of_ne_empty a h)

theorem ps1Of_nonpos (n : Int) (h : n ≤ 0) : ps1Of n = "> " := if_pos h

theorem consoleStep_cont (s : ConsoleState) (input : String)
    (hexit : ¬(s.indentCount ≤ 0 ∧ input = "exit")) (hne : input ≠ "")
    (hpos : ¬ indentOf (s.str ++ input ++ "\n") ≤ 0) :
    consoleStep s input = .continued
      ⟨s.str ++ input ++ "\n", indentOf (s.str ++ input ++ "\n"),
        ps1Of (indentOf (s.str ++ input ++ "\n")), s.history⟩ none := by
  unfold consoleStep
  rw [if_neg hexit, if_neg hne, if_neg hpos]

theorem consoleStep_submit (s : ConsoleState) (input : String)
    (hexit : ¬(s.indentCount ≤ 0 ∧ input = "exit")) (hne : input ≠ "")
    (hle : indentOf (s.str ++ input ++ "\n") ≤ 0) :
    consoleStep s input = .continued
      ⟨"", indentOf (s.str ++ input ++ "\n"),
        ps1Of (indentOf (s.str ++ input ++ "\n")),
        if 0 < (hidepassword (stripLast (s.str ++ input ++ "\n"))).length
        then s.history ++ [hidepassword (stripLast (s.str ++ input ++ "\n"))]
        else s.history⟩
      (some (s.str ++ input ++ "\n")) := by
  unfold consoleStep
  rw [if_neg hexit, if_neg hne, if_pos hle]

/-- C9: an empty input line is ignored in every state, in CONTINUATION just
as in IDLE: the loop continues in the identical state (same buffer, indent
depth and prompt) and submits nothing. -/
theorem emptyLine_ignored (s : ConsoleState) :
    consoleStep s "" = .continued s none := by
  have h1 : ¬(s.indentCount ≤ 0 ∧ ("" : String) = "exit") :=
    fun hc => absurd hc.2 (by decide)
  unfold consoleStep
  rw [if_neg h1, if_pos rfl]

/-- C7: the two script-facing entry points of the bridge, send and
sendAsync, are bound to the same dispatch function, so they agree on every
call record. -/
theorem send_sendAsync_agree : ∀ (α β : Type) (jethSend : α → β) (record : α),
    (apiBindings jethSend).send record = (apiBindings jethSend).sendAsync record :=
  fun _ _ _ _ => rfl

/-- C8: with the admin module mapped to startRPC, stopRPC and peers,
completing the token admin.st yields exactly admin.startRPC then
admin.stopRPC and never admin.peers; and an empty line or cursor position
zero yields no suggestions. -/
theorem admin_completion_example :
    keywordCompleter [("admin", ["startRPC", "stopRPC", "peers"])] "admin.st"
        = ["admin.startRPC", "admin.stopRPC"]
      ∧ "admin.peers"
          ∉ keywordCompleter [("admin", ["startRPC", "stopRPC", "peers"])] "admin.st"
      ∧ (∀ (catalog : List (String × List String)) (pos : Nat),
          apiWordCompleter catalog "" pos = ("", [], ""))
      ∧ (∀ (catalog : List (String × List String)) (line : String),
          apiWordCompleter catalog line 0 = ("", [], "")) := by
  refine ⟨by decide, by decide, ?_, ?_⟩
  · intro catalog pos
    unfold apiWordCompleter
    rw [if_pos (show ("" : String).length = 0 ∨ pos = 0 from Or.inl rfl)]
  · intro catalog line
    unfold apiWordCompleter
    rw [if_pos (show line.length = 0 ∨ 0 = 0 from Or.inr rfl)]

/-- C1 counterexample: the statement personal.unlockAccount(pw) matches the
password pattern, yet after its completion the history is unchanged (still
empty): no history entry at all is produced for it, rather than an empty
entry. -/
theorem sensitive_statement_not_logged :
    passwordRegexpMatch "personal.unlockAccount(pw)" = true
      ∧ consoleStep initState "personal.unlockAccount(pw)"
          = .continued ⟨"", 0, "> ", []⟩ (some "personal.unlockAccount(pw)\n") :=
  ⟨by decide, by decide⟩

/-- C1 (amended): on every completed statement the loop checks the buffer
(without its trailing newline) against the password pattern; on a match the
redacted entry is the empty string and, being empty, is dropped, so no
history entry is appended; a non-matching statement is appended verbatim. -/
theorem history_update (s : ConsoleState) (input : String) (s2 : ConsoleState)
    (stmt : String) (h : consoleStep s input = .continued s2 (some stmt)) :
    s2.history =
      if passwordRegexpMatch (stripLast stmt) = true then s.history
      else s.history ++ [stripLast stmt] := by
  by_cases hexit : s.indentCount ≤ 0 ∧ input = "exit"
  · unfold consoleStep at h
    rw [if_pos hexit] at h
    exact absurd h (by simp)
  by_cases hne : input = ""
  · unfold consoleStep at h
    rw [if_neg hexit, if_pos hne] at h
    injection h with h1 h2
    exact absurd h2 (by simp)
  by_cases hle : indentOf (s.str ++ input ++ "\n") ≤ 0
  · rw [consoleStep_submit s input hexit hne hle] at h
    injection h with h1 h2
    injection h2 with h2
    subst h2
    subst h1
    dsimp only
    unfold hidepassword
    by_cases hm : passwordRegexpMatch (stripLast (s.str ++ input ++ "\n")) = true
    · rw [if_pos hm, if_pos hm]
      rw [if_neg (by decide)]
    · rw [if_neg hm, if_neg hm]
      rw [if_pos]
      rw [show s.str ++ input ++ "\n" = (s.str ++ input) ++ "\n" from rfl,
        stripLast_newline, strLength_append]
      have := strLength_pos input hne
      omega
  · rw [consoleStep_cont s input hexit hne hle] at h
    injection h with h1 h2
    exact absurd h2 (by simp)

/-- Closed instance of the amended C1 theorem: the public statement
exp.coinbase is recorded verbatim. -/
theorem history_update_witness :
    (⟨"", 0, "> ", ["exp.coinbase"]⟩ : ConsoleState).history =
      if passwordRegexpMatch (stripLast "exp.coinbase\n") = true
      then initState.history
      else initState.history ++ [stripLast "exp.coinbase\n"] :=
  history_update initState "exp.coinbase" ⟨"", 0, "> ", ["exp.coinbase"]⟩
    "exp.coinbase\n" (by decide)

/-- C3 counterexample: the underscore and the digit 9 belong to the token
character set of the claim, yet the backward scan stops at them: with line a_b and
cursor 3 the head a_ is left untouched and only b is the token, and with
line x9y and cursor 3 only y is the token. -/
theorem scan_stops_at_identifier_chars :
    claimTokenChar "a_b".data 1
      ∧ claimTokenChar "x9y".data 1
      ∧ apiWordCompleter [] "a_b" 3 = ("a_", [], "")
      ∧ apiWordCompleter [] "x9y" 3 = ("x9", [], "") :=
  ⟨by decide, by decide, by decide, by decide⟩

theorem scanBoundary_props (l : List Char) (p : Nat) :
    scanBoundary l p ≤ p + 1
      ∧ (∀ j, scanBoundary l p ≤ j → 1 ≤ j → j ≤ p → goodAt l j)
      ∧ (scanBoundary l p = 0
          ∨ (2 ≤ scanBoundary l p ∧ ¬ goodAt l (scanBoundary l p - 1))) := by
  induction p with
  | zero =>
      refine ⟨by simp [scanBoundary], ?_, Or.inl rfl⟩
      intro j _ h1 h0
      omega
  | succ j ih =>
      by_cases hg : goodAt l (j + 1)
      · have hs : scanBoundary l (j + 1) = scanBoundary l j := by
          show (if goodAt l (j + 1) then scanBoundary l j else j + 2) = scanBoundary l j
          rw [if_pos hg]
        rw [hs]
        refine ⟨by omega, ?_, ih.2.2⟩
        intro i hi h1 h2
        rcases Nat.lt_or_ge i (j + 1) with hlt | hge
        · exact ih.2.1 i hi h1 (by omega)
        · have : i = j + 1 := by omega
          rw [this]
          exact hg
      · have hs : scanBoundary l (j + 1) = j + 2 := by
          show (if goodAt l (j + 1) then scanBoundary l j else j + 2) = j + 2
          rw [if_neg hg]
        rw [hs]
        refine ⟨by omega, ?_, Or.inr ⟨by omega, by simpa using hg⟩⟩
        intro i hi h1 h2
        omega

/-- C3 (amended): the backward scan keeps exactly the letters, the dot
separator, and the digit 3 of a web3 alias occurrence; digits in general
and the underscore stop the scan.  The scan never examines index zero;
apart from that, every index from the boundary to the cursor satisfies the
kept-character condition, and the character just before a positive boundary
fails it.  The token handed to the keyword completer is the slice of the
line between the boundary and the cursor. -/
theorem apiWordCompleter_scan :
    (∀ (l : List Char) (p : Nat),
        scanBoundary l p ≤ p + 1
          ∧ (∀ j, scanBoundary l p ≤ j → 1 ≤ j → j ≤ p → goodAt l j)
          ∧ (scanBoundary l p = 0
              ∨ (2 ≤ scanBoundary l p ∧ ¬ goodAt l (scanBoundary l p - 1))))
      ∧ (∀ (catalog : List (String × List String)) (line : String) (pos : Nat),
          line ≠ "" → pos ≠ 0 →
            apiWordCompleter catalog line pos
              = (String.mk (line.data.take (scanBoundary line.data (pos - 1))),
                  keywordCompleter catalog
                    (String.mk
                      ((line.data.take pos).drop (scanBoundary line.data (pos - 1)))),
                  String.mk (line.data.drop pos))) := by
  refine ⟨scanBoundary_props, ?_⟩
  intro catalog line pos hline hpos
  unfold apiWordCompleter
  rw [if_neg]
  intro hc
  rcases hc with hc | hc
  · exact absurd (List.length_eq_zero.mp hc) (strData_ne_of_ne_empty line hline)
  · exact hpos hc

/-- Closed instance of the amended C3 theorem: completing web3.ex at cursor
7 scans back across the whole token, web3 alias included. -/
theorem apiWordCompleter_scan_witness :
    apiWordCompleter [] "web3.ex" 7 = ("", [], "") := by
  rw [apiWordCompleter_scan.2 [] "web3.ex" 7 (by decide) (by decide)]
  decide

/-- C4 counterexample: with catalog entries exp and expanse, completing the
token exp (a full module name) yields the qualified suggestion exp.coinbase
together with the other module name expanse, not the unqualified method
name coinbase. -/
theorem moduleName_completion_qualified :
    keywordCompleter [("exp", ["coinbase"]), ("expanse", ["getBlock"])] "exp"
        = ["exp.coinbase", "expanse"]
      ∧ "coinbase"
          ∉ keywordCompleter [("exp", ["coinbase"]), ("expanse", ["getBlock"])] "exp" :=
  ⟨by decide, by decide⟩

/-- C4 (amended): for a token without a dot that equals a module name of
the catalog, the suggestions contain every method of that module rendered
qualified as module.method; every other catalog module whose name has the
token as a proper prefix is itself suggested as the bare module name; and
every suggestion is either such a qualified method of a matching entry or
the name of another module that has the token as a proper prefix. -/
theorem moduleName_completion (catalog : List (String × List String))
    (mod : String) (methods : List String)
    (hmem : (mod, methods) ∈ catalog) (hdot : '.' ∉ mod.data) :
    (∀ m ∈ methods, (mod ++ "." ++ m) ∈ keywordCompleter catalog mod)
      ∧ (∀ e ∈ catalog, e.1 ≠ mod → strHasPre mod e.1 = true →
          e.1 ∈ keywordCompleter catalog mod)
      ∧ ∀ r ∈ keywordCompleter catalog mod,
          (∃ e ∈ catalog, e.1 = mod ∧ ∃ m ∈ e.2, r = mod ++ "." ++ m)
            ∨ (∃ e ∈ catalog, e.1 ≠ mod ∧ strHasPre mod e.1 = true ∧ r = e.1) := by
  unfold keywordCompleter
  rw [if_neg hdot]
  refine ⟨?_, ?_, ?_⟩
  · intro m hm
    apply List.mem_flatMap.mpr
    refine ⟨(mod, methods), hmem, ?_⟩
    rw [if_pos rfl]
    exact List.mem_map.mpr ⟨m, hm, rfl⟩
  · intro e he hne2 hp
    apply List.mem_flatMap.mpr
    refine ⟨e, he, ?_⟩
    rw [if_neg (fun hx => hne2 hx.symm), if_pos hp]
    exact List.mem_singleton.mpr rfl
  · intro r hr
    obtain ⟨e, he, hfe⟩ := List.mem_flatMap.mp hr
    by_cases h1 : mod = e.1
    · rw [if_pos h1] at hfe
      obtain ⟨m, hm, hrm⟩ := List.mem_map.mp hfe
      exact Or.inl ⟨e, he, h1.symm, m, hm, by rw [← hrm, h1]⟩
    · rw [if_neg h1] at hfe
      by_cases h2 : strHasPre mod e.1 = true
      · rw [if_pos h2] at hfe
        have : r = e.1 := by simpa using hfe
        exact Or.inr ⟨e, he, fun hx => h1 hx.symm, h2, this⟩
      · rw [if_neg h2] at hfe
        exact absurd hfe (by simp)

/-- Closed instance of the amended C4 theorem: completing the full module
name admin suggests the qualified admin.startRPC. -/
theorem moduleName_completion_witness :
    ("admin" ++ "." ++ "startRPC")
      ∈ keywordCompleter [("admin", ["startRPC"])] "admin" :=
  (moduleName_completion [("admin", ["startRPC"])] "admin" ["startRPC"]
    (by decide) (by decide)).1 "startRPC" (by decide)

/-- C6 counterexample: a prompt read that returned an error together with
the answer y is not treated as denial: ConfirmTransaction returns true. -/
theorem prompt_error_not_denial :
    (⟨"y", true⟩ : PromptReply).errored = true
      ∧ ConfirmTransaction true ⟨"y", true⟩ = true :=
  ⟨rfl, by decide⟩

/-- C6 (amended): the prompt error is discarded, so the result does not
depend on it at all; with NatSpec disabled the result is true without
prompting, and with NatSpec enabled the result is exactly whether the
answer trimmed of spaces begins with y. -/
theorem confirmTransaction_behavior :
    ∀ (natSpec : Bool) (a : String) (e1 e2 : Bool),
      ConfirmTransaction natSpec ⟨a, e1⟩ = ConfirmTransaction natSpec ⟨a, e2⟩
        ∧ ConfirmTransaction false ⟨a, e1⟩ = true
        ∧ ConfirmTransaction true ⟨a, e1⟩ = strHasPre "y" (trimSpaces a) :=
  fun _ _ _ _ => ⟨rfl, rfl, rfl⟩

theorem inv_init : StateInv initState := by
  unfold StateInv
  decide

theorem inv_reset (s : ConsoleState) : StateInv (resetPrompt s) := by
  unfold StateInv resetPrompt
  dsimp only
  decide

theorem inv_step (s : ConsoleState) (input : String) (s2 : ConsoleState)
    (sub : Option String) (hs : StateInv s)
    (h : consoleStep s input = .continued s2 sub) : StateInv s2 := by
  by_cases hexit : s.indentCount ≤ 0 ∧ input = "exit"
  · unfold consoleStep at h
    rw [if_pos hexit] at h
    exact absurd h (by simp)
  by_cases hne : input = ""
  · unfold consoleStep at h
    rw [if_neg hexit, if_pos hne] at h
    injection h with h1 h2
    rw [← h1]
    exact hs
  by_cases hle : indentOf (s.str ++ input ++ "\n") ≤ 0
  · rw [consoleStep_submit s input hexit hne hle] at h
    injection h with h1 h2
    rw [← h1]
    unfold StateInv
    dsimp only
    exact ⟨⟨fun hx => absurd rfl hx, fun hx => absurd hle (by omega)⟩,
      fun hx => absurd hle (by omega)⟩
  · rw [consoleStep_cont s input hexit hne hle] at h
    injection h with h1 h2
    rw [← h1]
    unfold StateInv
    dsimp only
    exact ⟨⟨fun _ => by omega, fun _ => strApp_newline_ne_empty (s.str ++ input)⟩,
      fun _ => rfl⟩

theorem reachable_inv (s : ConsoleState) (h : Reachable s) : StateInv s := by
  induction h with
  | init => exact inv_init
  | line s s2 input sub _ hstep ih => exact inv_step s input s2 sub ih hstep
  | interrupt s _ _ => exact inv_reset s

/-- C10: in every reachable wait state of the interactive loop, the
statement buffer is non-empty exactly when the indent depth is strictly
positive; every transition of the loop re-establishes this. -/
theorem buffer_indent_invariant (s : ConsoleState) (h : Reachable s) :
    s.str ≠ "" ↔ 0 < s.indentCount :=
  (reachable_inv s h).1

/-- Closed instance of the C10 theorem at the start state. -/
theorem buffer_indent_invariant_witness :
    initState.str ≠ "" ↔ 0 < initState.indentCount :=
  buffer_indent_invariant initState Reachable.init

/-- C5: in every reachable state, the line exit ends the session exactly
when the machine is in IDLE (non-positive indent depth, which by the loop
invariant forces an empty buffer); with a positive depth the line exit is
ordinary input, appended to the buffer without submitting anything. -/
theorem exit_behavior (s : ConsoleState) (h : Reachable s) :
    ((consoleStep s "exit" = .exited) ↔ (s.indentCount ≤ 0 ∧ s.str = ""))
      ∧ (0 < s.indentCount →
          consoleStep s "exit" = .continued
            ⟨s.str ++ "exit" ++ "\n", s.indentCount, ps1Of s.indentCount,
              s.history⟩
            none) := by
  have hinv := reachable_inv s h
  have edepth : ∀ hp : 0 < s.indentCount,
      indentOf (s.str ++ "exit" ++ "\n") = s.indentCount := by
    intro hp
    have e1 : indentOf (s.str ++ "exit" ++ "\n")
        = indentOf s.str + indentOf "exit" + indentOf "\n" := by
      rw [indentOf_append, indentOf_append]
    have e2 : indentOf "exit" = 0 := by decide
    have e3 : indentOf "\n" = 0 := by decide
    have e4 := hinv.2 hp
    omega
  constructor
  · constructor
    · intro hx
      by_cases hle : s.indentCount ≤ 0
      · refine ⟨hle, ?_⟩
        by_contra hne
        have := hinv.1.mp hne
        omega
      · exfalso
        have hp : 0 < s.indentCount := by omega
        rw [consoleStep_cont s "exit" (fun hc => hle hc.1) (by decide)
          (by rw [edepth hp]; omega)] at hx
        exact absurd hx (by simp)
    · intro hx
      unfold consoleStep
      rw [if_pos ⟨hx.1, rfl⟩]
  · intro hp
    rw [consoleStep_cont s "exit" (fun hc => absurd hc.1 (by omega)) (by decide)
      (by rw [edepth hp]; omega)]
    rw [edepth hp]

/-- Closed instance of the C5 theorem at the start state, where the line
exit ends the session. -/
theorem exit_behavior_witness :
    ((consoleStep initState "exit" = .exited)
        ↔ (initState.indentCount ≤ 0 ∧ initState.str = ""))
      ∧ (0 < initState.indentCount →
          consoleStep initState "exit" = .continued
            ⟨initState.str ++ "exit" ++ "\n", initState.indentCount,
              ps1Of initState.indentCount, initState.history⟩
            none) :=
  exit_behavior initState Reachable.init

theorem runLines_cons_none (s s2 : ConsoleState) (l : String) (ls : List String)
    (h : consoleStep s l = .continued s2 none) :
    runLines s (l :: ls) = runLines s2 ls := by
  simp only [runLines, h]
  cases hr : runLines s2 ls with
  | exited subs => simp
  | alive f subs => simp

theorem runLines_cons_some (s s2 : ConsoleState) (l stmt : String)
    (ls : List String) (f : ConsoleState) (subs : List String)
    (h : consoleStep s l = .continued s2 (some stmt))
    (h2 : runLines s2 ls = .alive f subs) :
    runLines s (l :: ls) = .alive f (stmt :: subs) := by
  simp only [runLines, h, h2]
  simp

theorem runLines_cont (ls : List String) :
    ∀ s : ConsoleState,
      (∀ l ∈ ls, l ≠ "") →
      0 < s.indentCount →
      (∀ k, k ≤ ls.length → 0 < k → 0 < indentOf (s.str ++ bufferOf (ls.take k))) →
      ∃ s2, runLines s ls = .alive s2 []
        ∧ 0 < s2.indentCount ∧ s2.str = s.str ++ bufferOf ls := by
  induction ls with
  | nil =>
      intro s _ hpos _
      exact ⟨s, rfl, hpos, (strApp_empty s.str).symm⟩
  | cons l ls ih =>
      intro s hne hpos hpre
      have hl : l ≠ "" := hne l (List.mem_cons_self l ls)
      have hexit : ¬(s.indentCount ≤ 0 ∧ l = "exit") :=
        fun hc => absurd hc.1 (by omega)
      have hkey : s.str ++ bufferOf [l] = s.str ++ l ++ "\n" := by
        show s.str ++ ((l ++ "\n") ++ "") = (s.str ++ l) ++ "\n"
        rw [strApp_empty, ← strApp_assoc]
      have h1 : 0 < indentOf (s.str ++ l ++ "\n") := by
        rw [← hkey]
        exact hpre 1 (Nat.succ_le_succ (Nat.zero_le ls.length)) (by omega)
      have hstep := consoleStep_cont s l hexit hl (by omega)
      have hpre2 : ∀ k, k ≤ ls.length → 0 < k →
          0 < indentOf ((s.str ++ l ++ "\n") ++ bufferOf (ls.take k)) := by
        intro k hk h0
        have e : (s.str ++ l ++ "\n") ++ bufferOf (ls.take k)
            = s.str ++ bufferOf ((l :: ls).take (k + 1)) := by
          show _ = s.str ++ ((l ++ "\n") ++ bufferOf (ls.take k))
          simp only [strApp_assoc]
        rw [e]
        exact hpre (k + 1) (Nat.succ_le_succ hk) (Nat.succ_pos k)
      obtain ⟨sf, hrun, hfpos, hfstr⟩ := ih
          ⟨s.str ++ l ++ "\n", indentOf (s.str ++ l ++ "\n"),
            ps1Of (indentOf (s.str ++ l ++ "\n")), s.history⟩
          (fun x hx => hne x (List.mem_cons_of_mem l hx))
          h1
          hpre2
      dsimp only at hrun hfstr
      refine ⟨sf, ?_, hfpos, ?_⟩
      · rw [runLines_cons_none s _ l ls hstep]
        exact hrun
      · rw [hfstr]
        show (s.str ++ l ++ "\n") ++ bufferOf ls = s.str ++ ((l ++ "\n") ++ bufferOf ls)
        simp only [strApp_assoc]

theorem runLines_submit (ls : List String) :
    ∀ s : ConsoleState,
      ls ≠ [] →
      (∀ l ∈ ls, l ≠ "") →
      0 < s.indentCount →
      (∀ k, k < ls.length → 0 < k → 0 < indentOf (s.str ++ bufferOf (ls.take k))) →
      indentOf (s.str ++ bufferOf ls) ≤ 0 →
      ∃ h2, runLines s ls
          = .alive ⟨"", indentOf (s.str ++ bufferOf ls), "> ", h2⟩
              [s.str ++ bufferOf ls] := by
  induction ls with
  | nil =>
      intro s hnil _ _ _ _
      exact absurd rfl hnil
  | cons l ls ih =>
      intro s _ hne hpos hpre hfull
      have hl : l ≠ "" := hne l (List.mem_cons_self l ls)
      have hexit : ¬(s.indentCount ≤ 0 ∧ l = "exit") :=
        fun hc => absurd hc.1 (by omega)
      have hbuf : s.str ++ bufferOf (l :: ls) = (s.str ++ l ++ "\n") ++ bufferOf ls := by
        show s.str ++ ((l ++ "\n") ++ bufferOf ls) = _
        simp only [strApp_assoc]
      cases ls with
      | nil =>
          have hb1 : s.str ++ bufferOf [l] = s.str ++ l ++ "\n" := by
            show s.str ++ ((l ++ "\n") ++ "") = (s.str ++ l) ++ "\n"
            rw [strApp_empty, ← strApp_assoc]
          have hle : indentOf (s.str ++ l ++ "\n") ≤ 0 := by
            rw [← hb1]
            exact hfull
          have hstep := consoleStep_submit s l hexit hl hle
          refine ⟨if 0 < (hidepassword (stripLast (s.str ++ l ++ "\n"))).length
            then s.history ++ [hidepassword (stripLast (s.str ++ l ++ "\n"))]
            else s.history, ?_⟩
          rw [hb1, runLines_cons_some s _ l (s.str ++ l ++ "\n") [] _ [] hstep rfl,
            ps1Of_nonpos _ hle]
      | cons r rs =>
          have hb1 : s.str ++ bufferOf [l] = s.str ++ l ++ "\n" := by
            show s.str ++ ((l ++ "\n") ++ "") = (s.str ++ l) ++ "\n"
            rw [strApp_empty, ← strApp_assoc]
          have h1 : 0 < indentOf (s.str ++ l ++ "\n") := by
            rw [← hb1]
            exact hpre 1 (Nat.succ_lt_succ (Nat.succ_pos rs.length)) (by omega)
          have hstep := consoleStep_cont s l hexit hl (by omega)
          have hpre2 : ∀ k, k < (r :: rs).length → 0 < k →
              0 < indentOf ((s.str ++ l ++ "\n") ++ bufferOf ((r :: rs).take k)) := by
            intro k hk h0
            have e : (s.str ++ l ++ "\n") ++ bufferOf ((r :: rs).take k)
                = s.str ++ bufferOf ((l :: r :: rs).take (k + 1)) := by
              show _ = s.str ++ ((l ++ "\n") ++ bufferOf ((r :: rs).take k))
              simp only [strApp_assoc]
            rw [e]
            exact hpre (k + 1) (Nat.succ_lt_succ hk) (Nat.succ_pos k)
          have hfull2 : indentOf ((s.str ++ l ++ "\n") ++ bufferOf (r :: rs)) ≤ 0 := by
            rw [← hbuf]
            exact hfull
          obtain ⟨hh, hrun⟩ := ih
              ⟨s.str ++ l ++ "\n", indentOf (s.str ++ l ++ "\n"),
                ps1Of (indentOf (s.str ++ l ++ "\n")), s.history⟩
              (by simp)
              (fun x hx => hne x (List.mem_cons_of_mem l hx))
              h1 hpre2 hfull2
          dsimp only at hrun
          refine ⟨hh, ?_⟩
          rw [runLines_cons_none s _ l (r :: rs) hstep, hrun, hbuf]

/-- C2 counterexample: the two-line sequence close-brace then open-brace
has cumulative balance zero only after the final line (it is minus one
after the first line), yet the accumulator submits the first line alone and
ends in CONTINUATION, so the single submission is not the whole buffer and
does not happen on the final line; and the one-line sequence consisting of
the exit command has balance zero after its final line but produces no
submission at all, because the session ends. -/
theorem accumulator_counterexample :
    (indentOf (bufferOf ["\x7d"]) ≠ 0
      ∧ indentOf (bufferOf ["\x7d", "\x7b"]) = 0
      ∧ runLines initState ["\x7d", "\x7b"]
          = .alive ⟨"\x7b\n", 1, ".. ", ["\x7d"]⟩ ["\x7d\n"])
      ∧ (indentOf (bufferOf ["exit"]) = 0
          ∧ runLines initState ["exit"] = .exited []) := by
  decide

/-- C2 (amended): for every non-empty finite sequence of non-empty input
lines whose first line is not the exit command, whose cumulative bracket
balance is strictly positive after each earlier line and zero after the
final line, the accumulator stays in CONTINUATION (alive, positive depth,
nothing submitted) after each earlier line and submits the whole buffer
exactly once, upon the final line. -/
theorem accumulator_submits_once (lines : List String)
    (hnil : lines ≠ [])
    (hne : ∀ l ∈ lines, l ≠ "")
    (hhead : lines.head? ≠ some "exit")
    (hpre : ∀ k, k < lines.length → 0 < k → 0 < indentOf (bufferOf (lines.take k)))
    (hfull : indentOf (bufferOf lines) = 0) :
    (∃ h2, runLines initState lines = .alive ⟨"", 0, "> ", h2⟩ [bufferOf lines])
      ∧ (∀ k, k < lines.length → 0 < k →
          ∃ s2, runLines initState (lines.take k) = .alive s2 []
            ∧ 0 < s2.indentCount) := by
  cases lines with
  | nil => exact absurd rfl hnil
  | cons l0 rest =>
      have hl0 : l0 ≠ "" := hne l0 (List.mem_cons_self l0 rest)
      have hl0exit : l0 ≠ "exit" := by
        intro hx
        exact hhead (by rw [hx]; rfl)
      have hexit : ¬(initState.indentCount ≤ 0 ∧ l0 = "exit") :=
        fun hc => hl0exit hc.2
      have hinit : initState.str ++ l0 ++ "\n" = l0 ++ "\n" := by
        show ("" ++ l0) ++ "\n" = l0 ++ "\n"
        rw [strEmpty_app]
      cases rest with
      | nil =>
          have e : bufferOf [l0] = l0 ++ "\n" := by
            show (l0 ++ "\n") ++ "" = l0 ++ "\n"
            rw [strApp_empty]
          have hn : indentOf (l0 ++ "\n") = 0 := by
            rw [← e]
            exact hfull
          have hle : indentOf (initState.str ++ l0 ++ "\n") ≤ 0 := by
            rw [hinit]
            omega
          have hstep := consoleStep_submit initState l0 hexit hl0 hle
          rw [hinit] at hstep
          rw [hn, ps1Of_nonpos 0 le_rfl] at hstep
          constructor
          · refine ⟨if 0 < (hidepassword (stripLast (l0 ++ "\n"))).length
              then initState.history ++ [hidepassword (stripLast (l0 ++ "\n"))]
              else initState.history, ?_⟩
            rw [e, runLines_cons_some initState _ l0 (l0 ++ "\n") [] _ [] hstep rfl]
          · intro k hk h0
            simp only [List.length_cons, List.length_nil] at hk
            omega
      | cons r1 rest1 =>
          have e1 : bufferOf [l0] = l0 ++ "\n" := by
            show (l0 ++ "\n") ++ "" = l0 ++ "\n"
            rw [strApp_empty]
          have h1 : 0 < indentOf (l0 ++ "\n") := by
            have h := hpre 1 (Nat.succ_lt_succ (Nat.succ_pos rest1.length)) (by omega)
            rw [show (l0 :: r1 :: rest1).take 1 = [l0] from rfl, e1] at h
            exact h
          have hstep := consoleStep_cont initState l0 hexit hl0
            (by rw [hinit]; omega)
          rw [hinit] at hstep
          constructor
          · have hpre2 : ∀ k, k < (r1 :: rest1).length → 0 < k →
                0 < indentOf ((l0 ++ "\n") ++ bufferOf ((r1 :: rest1).take k)) := by
              intro k hk h0
              have e : (l0 ++ "\n") ++ bufferOf ((r1 :: rest1).take k)
                  = bufferOf ((l0 :: r1 :: rest1).take (k + 1)) := rfl
              rw [e]
              exact hpre (k + 1) (Nat.succ_lt_succ hk) (Nat.succ_pos k)
            have hfull2 : indentOf ((l0 ++ "\n") ++ bufferOf (r1 :: rest1)) ≤ 0 := by
              have e : (l0 ++ "\n") ++ bufferOf (r1 :: rest1)
                  = bufferOf (l0 :: r1 :: rest1) := rfl
              rw [e]
              omega
            obtain ⟨hh, hrun⟩ := runLines_submit (r1 :: rest1)
                ⟨l0 ++ "\n", indentOf (l0 ++ "\n"), ps1Of (indentOf (l0 ++ "\n")),
                  initState.history⟩
                (by simp)
                (fun x hx => hne x (List.mem_cons_of_mem l0 hx))
                h1 hpre2 hfull2
            dsimp only at hrun
            refine ⟨hh, ?_⟩
            rw [runLines_cons_none initState _ l0 (r1 :: rest1) hstep, hrun]
            have e : (l0 ++ "\n") ++ bufferOf (r1 :: rest1)
                = bufferOf (l0 :: r1 :: rest1) := rfl
            rw [e, hfull]
          · intro k hk h0
            cases k with
            | zero => omega
            | succ j =>
                have htake : (l0 :: r1 :: rest1).take (j + 1)
                    = l0 :: (r1 :: rest1).take j := rfl
                rw [htake]
                have hmemt : ∀ x ∈ (r1 :: rest1).take j, x ≠ "" :=
                  fun x hx =>
                    hne x (List.mem_cons_of_mem l0 (List.take_subset j (r1 :: rest1) hx))
                have hpre3 : ∀ m, m ≤ ((r1 :: rest1).take j).length → 0 < m →
                    0 < indentOf ((l0 ++ "\n")
                      ++ bufferOf (((r1 :: rest1).take j).take m)) := by
                  intro m hm h0m
                  have hmj : m ≤ j :=
                    le_trans hm (List.length_take_le j (r1 :: rest1))
                  have htt : ((r1 :: rest1).take j).take m = (r1 :: rest1).take m := by
                    rw [List.take_take, Nat.min_eq_left hmj]
                  have e : (l0 ++ "\n") ++ bufferOf ((r1 :: rest1).take m)
                      = bufferOf ((l0 :: r1 :: rest1).take (m + 1)) := rfl
                  rw [htt, e]
                  refine hpre (m + 1) ?_ (Nat.succ_pos m)
                  simp only [List.length_cons] at hk ⊢
                  omega
                obtain ⟨s3, hrun3, h3pos, _⟩ := runLines_cont ((r1 :: rest1).take j)
                    ⟨l0 ++ "\n", indentOf (l0 ++ "\n"), ps1Of (indentOf (l0 ++ "\n")),
                      initState.history⟩
                    hmemt h1 hpre3
                refine ⟨s3, ?_, h3pos⟩
                rw [runLines_cons_none initState _ l0 ((r1 :: rest1).take j) hstep]
                exact hrun3

/-- Closed instance of the amended C2 theorem on the two-line input of an
open brace then a close brace: one submission of the whole buffer on the
final line, CONTINUATION after the first line. -/
theorem accumulator_submits_once_witness :
    (∃ h2, runLines initState ["\x7b", "\x7d"]
        = .alive ⟨"", 0, "> ", h2⟩ [bufferOf ["\x7b", "\x7d"]])
      ∧ (∀ k, k < (["\x7b", "\x7d"] : List String).length → 0 < k →
          ∃ s2, runLines initState (["\x7b", "\x7d"].take k) = .alive s2 []
            ∧ 0 < s2.indentCount) :=
  accumulator_submits_once ["\x7b", "\x7d"] (by decide) (by decide) (by decide)
    (by decide) (by decide)

end GexpConsole
